import Mathlib

/- Shallow embedding of `process_statscan_to_json.py` (StatCanJSONProcessor).
   Strings are Lean `String`s (lists of `Char`); the Python `re` patterns used by
   the processor are embedded as executable character-level matchers that follow
   Python's leftmost-search and ordered-alternation backtracking semantics on the
   ASCII character classes the data uses.  Prices and weights are `ℚ`
   (idealising IEEE floats), and `round(2)`/pandas `.round(2)` is modelled as
   round-half-to-even on rationals. -/

/-! ### Character classes and ASCII case mapping (`str.lower`, `str.title`, `\w`, `\s`, `\d`) -/

/-- Pairs (uppercase, lowercase) for the 26 ASCII letters: the table behind `str.lower`. -/
def lowerPairs : List (Char × Char) :=
  [('A','a'), ('B','b'), ('C','c'), ('D','d'), ('E','e'), ('F','f'), ('G','g'),
   ('H','h'), ('I','i'), ('J','j'), ('K','k'), ('L','l'), ('M','m'), ('N','n'),
   ('O','o'), ('P','p'), ('Q','q'), ('R','r'), ('S','s'), ('T','t'), ('U','u'),
   ('V','v'), ('W','w'), ('X','x'), ('Y','y'), ('Z','z')]

/-- Pairs (lowercase, uppercase) for the 26 ASCII letters: the table behind `str.upper`. -/
def upperPairs : List (Char × Char) :=
  [('a','A'), ('b','B'), ('c','C'), ('d','D'), ('e','E'), ('f','F'), ('g','G'),
   ('h','H'), ('i','I'), ('j','J'), ('k','K'), ('l','L'), ('m','M'), ('n','N'),
   ('o','O'), ('p','P'), ('q','Q'), ('r','R'), ('s','S'), ('t','T'), ('u','U'),
   ('v','V'), ('w','W'), ('x','X'), ('y','Y'), ('z','Z')]

/-- ASCII lower-casing of one character (Python `str.lower` restricted to ASCII). -/
def asciiLower (c : Char) : Char := (lowerPairs.lookup c).getD c

/-- ASCII upper-casing of one character. -/
def asciiUpper (c : Char) : Char := (upperPairs.lookup c).getD c

/-- Is `c` an ASCII letter (a "cased" character for `str.title`)? -/
def isAlphaCh (c : Char) : Bool :=
  (upperPairs.lookup c).isSome || (lowerPairs.lookup c).isSome

/-- Python regex `\s` (ASCII): space, tab, newline, vertical tab, form feed, carriage return. -/
def isSpaceCh (c : Char) : Bool :=
  c = ' ' || c = '\t' || c = '\n' || c = '\x0b' || c = '\x0c' || c = '\r'

/-- Python regex `\w` (ASCII): letters, digits, underscore. -/
def isWordCh (c : Char) : Bool := isAlphaCh c || c.isDigit || c = '_'

/-! ### Generic string helpers -/

/-- Case-insensitive literal match: `pat` (given lower-case) against the front of `l`;
    returns the remainder of `l` on success. -/
def matchCI : List Char → List Char → Option (List Char)
  | [], l => some l
  | _ :: _, [] => none
  | p :: ps, c :: cs => if asciiLower c = p then matchCI ps cs else none

/-- Boundary check `\b` immediately after a matched word-character: next char absent or not a word char. -/
def boundaryB : List Char → Bool
  | [] => true
  | c :: _ => !isWordCh c

/-- Python `str.strip()` (ASCII whitespace). -/
def pyStrip (l : List Char) : List Char :=
  ((l.dropWhile isSpaceCh).reverse.dropWhile isSpaceCh).reverse

/-- The stateful pass behind Python `str.title()`: `prevCased` records whether the
    previous character was a cased (alphabetic) character. -/
def titleAux : Bool → List Char → List Char
  | _, [] => []
  | prevCased, c :: cs =>
    (if isAlphaCh c then (if prevCased then asciiLower c else asciiUpper c) else c)
      :: titleAux (isAlphaCh c) cs

/-- Python `str.title()`. -/
def pyTitle (l : List Char) : List Char := titleAux false l

/-- Does `pre` start the string `s` (Python `str.startswith`, exact case)? -/
def isPrefixOfB : List Char → List Char → Bool
  | [], _ => true
  | _ :: _, [] => false
  | p :: ps, c :: cs => c = p && isPrefixOfB ps cs

/-- Substring containment (Python `in` on strings). -/
def containsSubB (needle : List Char) : List Char → Bool
  | [] => isPrefixOfB needle []
  | c :: cs => isPrefixOfB needle (c :: cs) || containsSubB needle cs

/-- Python `str.split(",")`. -/
def splitComma : List Char → List (List Char)
  | [] => [[]]
  | c :: cs =>
    if c = ',' then [] :: splitComma cs
    else
      match splitComma cs with
      | [] => [[c]]
      | h :: t => (c :: h) :: t

/-- Digits of a decimal literal to a natural number. -/
def natFromDigits (l : List Char) : Nat :=
  l.foldl (fun a c => a * 10 + (c.toNat - 48)) 0

/-- Value `float(group(1))` for a match `<digits>[.<digits>]`, as an exact rational. -/
def ratOfNumber (ds frac : List Char) : ℚ :=
  if frac.isEmpty then (natFromDigits ds : ℚ)
  else (natFromDigits ds : ℚ) + (natFromDigits frac : ℚ) / 10 ^ frac.length

/-! ### `PER_UNIT_EXPR`: `per\s+(kilogram|kg|gram|g|litre|l|ml|millilitre)s?\b` (IGNORECASE) -/

/-- Unit alternatives of the per-unit pattern, in the pattern's alternation order. -/
def perUnitTokens : List String :=
  ["kilogram", "kg", "gram", "g", "litre", "l", "ml", "millilitre"]

/-- Greedy `s?` followed by `\b`: succeeds iff an optional `s`/`S` can be consumed so
    that the position after it is a word boundary. -/
def sOptBoundary : List Char → Bool
  | [] => true
  | c :: cs => if asciiLower c = 's' then boundaryB cs else !isWordCh c

/-- Try the unit alternatives in order at the current position (the capture, group 1,
    is the unit word without the optional `s`, already lower-cased as the code does). -/
def tryPerUnitToken : List String → List Char → Option String
  | [], _ => none
  | t :: ts, l =>
    match matchCI t.data l with
    | some rest => if sOptBoundary rest then some t else tryPerUnitToken ts l
    | none => tryPerUnitToken ts l

/-- Attempt the per-unit pattern at the current position. -/
def perUnitAt (l : List Char) : Option String :=
  match matchCI "per".data l with
  | some l1 =>
    match l1 with
    | c :: cs => if isSpaceCh c then tryPerUnitToken perUnitTokens (cs.dropWhile isSpaceCh) else none
    | [] => none
  | none => none

/-- Search (`re.search`) with the per-unit pattern: leftmost match, returning group 1 lower-cased. -/
def perUnitSearch : List Char → Option String
  | [] => none
  | c :: cs =>
    match perUnitAt (c :: cs) with
    | some u => some u
    | none => perUnitSearch cs

/-! ### `PACKAGE_SIZE_EXPR`:
  `\b(\d+(\.\d+)?)\s*(kg|kilogram(s)?|g|gram(s)?|l|litre(s)?|ml|millilitre(s)?)\b` -/

/-- Unit alternatives of the package pattern in alternation order, with whether the
    alternative carries an optional `(s)?`. -/
def pkgUnitTokens : List (String × Bool) :=
  [("kg", false), ("kilogram", true), ("g", false), ("gram", true),
   ("l", false), ("litre", true), ("ml", false), ("millilitre", true)]

/-- Match one unit alternative (with its optional greedy `s`) followed by `\b`;
    returns the captured group-3 text (lower-cased, `s` included when consumed)
    and the remainder. -/
def tryTokenS (t : String) (allowS : Bool) (l : List Char) : Option (String × List Char) :=
  match matchCI t.data l with
  | none => none
  | some r =>
    if allowS then
      match r with
      | [] => some (t, [])
      | c :: r2 =>
        if asciiLower c = 's' then
          if boundaryB r2 then some (t ++ "s", r2) else none
        else if !isWordCh c then some (t, r) else none
    else if boundaryB r then some (t, r) else none

/-- The package pattern's unit alternation, in order. -/
def tryPkgUnit : List (String × Bool) → List Char → Option (String × List Char)
  | [], _ => none
  | (t, aS) :: ts, l =>
    match tryTokenS t aS l with
    | some res => some res
    | none => tryPkgUnit ts l

/-- Attempt the package-size pattern at the current position; `prevW` tells whether the
    character before this position is a word character (for the leading `\b`).
    Returns (numeric value, captured unit word, remainder after the match). -/
def packageAt (prevW : Bool) (l : List Char) : Option (ℚ × String × List Char) :=
  if prevW then none
  else
    let ds := l.takeWhile Char.isDigit
    if ds.isEmpty then none
    else
      let r1 := l.drop ds.length
      let fr : List Char × List Char :=
        match r1 with
        | '.' :: t =>
          let fs := t.takeWhile Char.isDigit
          if fs.isEmpty then ([], r1) else (fs, t.drop fs.length)
        | _ => ([], r1)
      let r3 := fr.2.dropWhile isSpaceCh
      match tryPkgUnit pkgUnitTokens r3 with
      | some (u, rest) => some (ratOfNumber ds fr.1, u, rest)
      | none => none

/-- Scan for the package pattern, threading whether the previous character is a word
    character (leftmost `re.search`). -/
def pkgScan (prevW : Bool) : List Char → Option (ℚ × String)
  | [] => none
  | c :: cs =>
    match packageAt prevW (c :: cs) with
    | some (v, u, _) => some (v, u)
    | none => pkgScan (isWordCh c) cs

/-- Search (`re.search`) with the package-size pattern, returning (group 1 as a rational,
    group 3 lower-cased). -/
def packageSearch (l : List Char) : Option (ℚ × String) := pkgScan false l

/-! ### `QUANTITY_EXPR`: `\b\d+\s*(dozen|bags?|packs?|items?)\b` -/

/-- Quantity words in alternation order, with their optional `s?`. -/
def qtyTokens : List (String × Bool) :=
  [("dozen", false), ("bag", true), ("pack", true), ("item", true)]

/-- Attempt the quantity pattern at the current position; returns the remainder. -/
def quantityAt (prevW : Bool) (l : List Char) : Option (List Char) :=
  if prevW then none
  else
    let ds := l.takeWhile Char.isDigit
    if ds.isEmpty then none
    else
      let r1 := (l.drop ds.length).dropWhile isSpaceCh
      match tryPkgUnit qtyTokens r1 with
      | some (_, rest) => some rest
      | none => none

/-! ### `UNIT_GARBAGE`: `\b(kilo)?gram(s)?\b|\b(litre|litres|liter|liters)\b|\bunit\b` -/

/-- Tail `gram(s)?\b` of the first unit-noise alternative, at the current position. -/
def gramPart (l : List Char) : Option (List Char) :=
  match matchCI "gram".data l with
  | some r =>
    match r with
    | [] => some []
    | c :: r2 =>
      if asciiLower c = 's' then
        if boundaryB r2 then some r2 else none
      else if !isWordCh c then some r else none
  | none => none

/-- One literal alternative followed by `\b`. -/
def litWordAt (w : String) (l : List Char) : Option (List Char) :=
  match matchCI w.data l with
  | some r => if boundaryB r then some r else none
  | none => none

/-- Attempt the unit-noise pattern at the current position. -/
def garbageAt (prevW : Bool) (l : List Char) : Option (List Char) :=
  if prevW then none
  else
    match (match matchCI "kilo".data l with
           | some r => gramPart r
           | none => gramPart l) with
    | some rest => some rest
    | none =>
      match litWordAt "litre" l <|> litWordAt "litres" l
              <|> litWordAt "liter" l <|> litWordAt "liters" l with
      | some rest => some rest
      | none => litWordAt "unit" l

/-! ### The combined `clean_regex`: `(PACKAGE)|(QUANTITY)|(UNIT_GARBAGE)`, `re.sub(_, "")` -/

/-- One attempt of the combined clean pattern at the current position, alternatives in
    the pattern's order; returns the remainder after the match. -/
def cleanMatchAt (prevW : Bool) (l : List Char) : Option (List Char) :=
  match packageAt prevW l with
  | some (_, _, rest) => some rest
  | none =>
    match quantityAt prevW l with
    | some rest => some rest
    | none => garbageAt prevW l

/-- Substitution `re.sub(clean_regex, "", -)` as a fuel-indexed scan (every match of the pattern
    consumes at least one character, so `fuel = length` suffices; the fuel only makes
    the recursion structural).  Every alternative of the pattern ends in a letter, so
    after a removal the previous character is a word character. -/
def cleanSubFuel : Nat → Bool → List Char → List Char
  | 0, _, l => l
  | _ + 1, _, [] => []
  | fuel + 1, prevW, c :: cs =>
    match cleanMatchAt prevW (c :: cs) with
    | some rest => cleanSubFuel fuel true rest
    | none => c :: cleanSubFuel fuel (isWordCh c) cs

/-- Substitution `clean_regex.sub("", l)`. -/
def cleanSub (l : List Char) : List Char := cleanSubFuel l.length false l

/-- Scan reporting whether the combined clean pattern matches anywhere (threading the
    word-character status of the previous character). -/
def cleanScanMatch : Bool → List Char → Bool
  | _, [] => false
  | prevW, c :: cs => (cleanMatchAt prevW (c :: cs)).isSome || cleanScanMatch (isWordCh c) cs

/-! ### `PER_EXPR`: `re.sub(r",?\s*per\b.*$", "", text)` (IGNORECASE, no MULTILINE/DOTALL) -/

/-- Head of the per-phrase pattern at the current position: optional comma, then `\s*`,
    then `per` followed by `\b`; returns the remainder after `per`. -/
def perHeadAt (l : List Char) : Option (List Char) :=
  let l1 := match l with
            | ',' :: t => t
            | _ => l
  match matchCI "per".data (l1.dropWhile isSpaceCh) with
  | some l3 => if boundaryB l3 then some l3 else none
  | none => none

/-- Can `.*$` (no DOTALL, no MULTILINE) succeed from here?  `.` does not cross `\n`
    and `$` matches at the end or just before a final newline, so the tail may contain
    a `\n` only as its very last character. -/
def perTailOK (l : List Char) : Bool :=
  !(l.contains '\n') || (l.getLast? = some '\n' && !(l.dropLast.contains '\n'))

/-- Whether the per-phrase pattern matches starting at some position. -/
def perHasMatch : List Char → Bool
  | [] => false
  | c :: cs =>
    (match perHeadAt (c :: cs) with
     | some l3 => perTailOK l3
     | none => false) || perHasMatch cs

/-- Substitution `re.sub(PER_EXPR, "", -)`: remove from the leftmost matchable position to the end
    (keeping a final newline when `$` matched just before it). -/
def perStrip : List Char → List Char
  | [] => []
  | c :: cs =>
    match perHeadAt (c :: cs) with
    | some l3 =>
      if perTailOK l3 then (if l3.contains '\n' then ['\n'] else [])
      else c :: perStrip cs
    | none => c :: perStrip cs

/-! ### `re.sub(r"\(.*?\)", "", -)` -/

/-- Parenthetical removal as one buffered pass: chars after an unmatched `(` are held
    in `buf` (reversed); a `)` before any newline closes the lazy match and discards the
    buffer; a newline (or end of input) flushes it, since `.` cannot cross `\n` and every
    `(` inside the buffer also has no `)` before that newline. -/
def psAux : Option (List Char) → List Char → List Char
  | none, [] => []
  | none, c :: cs => if c = '(' then psAux (some [c]) cs else c :: psAux none cs
  | some b, [] => b.reverse
  | some b, c :: cs =>
    if c = ')' then psAux none cs
    else if c = '\n' then b.reverse ++ c :: psAux none cs
    else psAux (some (c :: b)) cs

/-- Substitution `re.sub` removing every lazy parenthetical match. -/
def parenSub (l : List Char) : List Char := psAux none l

/-! ### `re.sub(r"\s{2,}", " ", -)` -/

/-- Whitespace collapsing: `skipping` is true while inside a run already replaced by a
    single space. -/
def cwAux : Bool → List Char → List Char
  | _, [] => []
  | true, c :: cs => if isSpaceCh c then cwAux true cs else c :: cwAux false cs
  | false, c :: cs =>
    if isSpaceCh c then
      match cs with
      | c2 :: _ => if isSpaceCh c2 then ' ' :: cwAux true cs else c :: cwAux false cs
      | [] => [c]
    else c :: cwAux false cs

/-- Substitution collapsing whitespace: each maximal whitespace run of length ≥ 2 becomes one space. -/
def collapseWs (l : List Char) : List Char := cwAux false l

/-! ### The processor's derived string operations -/

/-- Cleaner `_clean_product_name` (lines 382-414): per-phrase strip, combined clean-pattern
    removal, parenthetical removal, `[^\w\s]` removal, whitespace collapsing, then
    `strip().title()`. -/
def cleanProductName (text : String) : String :=
  let t1 := perStrip text.data
  let t2 := cleanSub t1
  let t3 := parenSub t2
  let t4 := t3.filter (fun c => isWordCh c || isSpaceCh c)
  let t5 := collapseWs t4
  ⟨pyTitle (pyStrip t5)⟩

/-- The per-unit branch's unit mapping in `_extract_weight_and_unit` (lines 347-358),
    including the defensive final `else` arm. -/
def perUnitCanon (u : String) : String :=
  if u = "kilogram" ∨ u = "kg" then "kg"
  else if u = "gram" ∨ u = "g" then "kg"
  else if u = "litre" ∨ u = "l" then "L"
  else if u = "ml" ∨ u = "millilitre" then "L"
  else "kg"

/-- The package branch of `_extract_weight_and_unit` (lines 362-377): family tests written
    exactly as in the code (`==`, `startswith`, substring `in`). -/
def packageConvert (v : ℚ) (unit : String) : ℚ × String :=
  if unit = "g" ∨ (isPrefixOfB "gram".data unit.data ∧ ¬ isPrefixOfB "kilogram".data unit.data)
    then (v / 1000, "kg")
  else if containsSubB "ml".data unit.data ∨ isPrefixOfB "millilitre".data unit.data
    then (v / 1000, "L")
  else if unit = "l" ∨ isPrefixOfB "litre".data unit.data
    then (v, "L")
  else (v, "kg")

/-- Extractor `_extract_weight_and_unit` (lines 329-380). -/
def extractWeightAndUnit (text : String) : ℚ × String :=
  match perUnitSearch text.data with
  | some u => (1, perUnitCanon u)
  | none =>
    match packageSearch text.data with
    | some (v, u) => packageConvert v u
    | none => (1, "unit")

/-- The `is_per_unit` column of `transform` (line 204): `str.contains(PER_UNIT_EXPR,
    case=False)` is `re.search` truthiness. -/
def isPerUnitFlag (text : String) : Bool := (perUnitSearch text.data).isSome

/-- Date pattern of `_format_date` (lines 312-327): after `str(s).strip()`, then `re.match(r"^\d{4}-\d{2}$", -)`. -/
def isYM : List Char → Bool
  | [a, b, c, d, e, f, g] =>
    a.isDigit && b.isDigit && c.isDigit && d.isDigit && e = '-' && f.isDigit && g.isDigit
  | _ => false

/-- Formatter `_format_date`. -/
def formatDate (s : String) : String :=
  let t := pyStrip s.data
  if isYM t then (⟨t⟩ : String) ++ "-01" else ⟨t⟩

/-- Parser `_parse_location` (lines 432-451). -/
def parseLocation (location : String) : String × String :=
  let parts := (splitComma location.data).map pyStrip
  match parts with
  | p0 :: p1 :: _ => (⟨p0⟩, ⟨p1⟩)
  | _ => ("", location)

/-! ### `CATEGORY_KEYWORDS` and `_infer_category` -/

/-- Table `CATEGORY_KEYWORDS` (lines 60-114), in declared (insertion) order; Python dicts
    preserve insertion order, so iteration visits categories in this order. -/
def CATEGORY_KEYWORDS : List (String × List String) :=
  [("vegetable",
    ["potato", "sweet potato", "tomato", "carrot", "onion",
     "celery", "cucumber", "iceberg lettuce", "romaine lettuce",
     "broccoli", "bell pepper", "lemon", "lime", "avocado",
     "cabbage", "mushroom", "squash", "green salad"]),
   ("fruit",
    ["cantaloupe", "apple", "orange", "banana", "pear",
     "grape", "strawberry"]),
   ("dairy_and_egg",
    ["cow milk", "soy milk", "nut milk", "whole cream", "butter",
     "block cheese", "yogurt", "egg"]),
   ("pork", ["pork loin", "pork", "bacon"]),
   ("beef",
    ["beef stewing", "beef striploin", "beef top sirloin",
     "beef rib", "ground beef", "beef"]),
   ("poultry",
    ["whole chicken", "chicken breast", "chicken thigh",
     "chicken drumsticks", "chicken"]),
   ("plant_based_protein", ["tofu"]),
   ("carbs",
    ["dry pasta", "fresh pasta", "pasta", "brown rice", "white rice",
     "white bread", "flatbread", "pita", "crackers", "crisp bread"]),
   ("seafood", ["salmon", "shrimp", "tuna"]),
   ("nuts_and_dry_beans",
    ["peanut", "almond", "sunflower seed", "dried lentils",
     "dry bean", "legume", "bean"]),
   ("seasoning", ["ketchup", "mayonnaise", "salad dressing", "white sugar", "brown sugar"]),
   ("baby_items", ["baby food", "infant formula"]),
   ("frozen_food",
    ["frozen french fries", "frozen broccoli", "frozen green bean",
     "frozen corn", "frozen mixed vegetable", "frozen pea",
     "frozen pizza", "frozen spinach", "frozen strawberry"]),
   ("deli", ["wiener", "meatless burger", "hummus", "salsa"]),
   ("canned_food",
    ["canned tomato", "canned baked bean", "canned soup",
     "canned bean", "canned lentil", "canned corn",
     "canned peach", "canned pear", "canned salmon", "canned tuna"]),
   ("snacks", ["cookie", "cookies", "sweet biscuit", "biscuit"]),
   ("baking_ingredients", ["wheat flour", "wheet flour", "flour"]),
   ("personal_care", ["deodorant", "toothpaste", "tooth paste", "shampoo", "conditioner"]),
   ("household_supply", ["laundry detergent"]),
   ("drink", ["apple juice", "roasted coffee", "ground coffee", "coffee", "tea"]),
   ("pantry_item", ["peanut butter", "pasta sauce", "cereal"]),
   ("oil", ["margarine", "vegetable oil", "canola oil", "olive oil"])]

/-- Keyword search of `_infer_category` (a word-boundary pattern built per keyword): scan for the keyword with
    word boundaries on both sides.  Every keyword in the table begins and ends with a
    letter, so the leading `\b` holds iff the previous character is not a word character
    (`prevW` threads that) and the trailing `\b` iff the next one is not. -/
def wbSearchAux (kw : List Char) : Bool → List Char → Bool
  | _, [] => false
  | prevW, c :: cs =>
    (!prevW && (match matchCI kw (c :: cs) with
                | some rest => boundaryB rest
                | none => false))
      || wbSearchAux kw (isWordCh c) cs

/-- The inner keyword loop of `_infer_category`. -/
def kwLoop (nl : List Char) : List String → Bool
  | [] => false
  | kw :: kws => wbSearchAux kw.data false nl || kwLoop nl kws

/-- The outer category loop of `_infer_category`. -/
def catLoop (nl : List Char) : List (String × List String) → String
  | [] => "other"
  | (cat, kws) :: rest => if kwLoop nl kws then cat else catLoop nl rest

/-- Classifier `_infer_category` (lines 416-430). -/
def inferCategory (name : String) : String :=
  catLoop (name.data.map asciiLower) CATEGORY_KEYWORDS

/-! ### Price rounding and the row pipeline (`transform`, lines 168-250) -/

/-- Round half to even (numpy/pandas `.round` semantics) to an integer. -/
def rhe (q : ℚ) : ℤ :=
  if q - ⌊q⌋ < 1/2 then ⌊q⌋
  else if 1/2 < q - ⌊q⌋ then ⌊q⌋ + 1
  else if ⌊q⌋ % 2 = 0 then ⌊q⌋ else ⌊q⌋ + 1

/-- Rounding `.round(2)`. -/
def round2 (q : ℚ) : ℚ := (rhe (q * 100) : ℚ) / 100

/-- One input row after the column renaming of `transform` (lines 190-197). -/
structure RawRow where
  date : String
  location : String
  product_raw : String
  product_price : ℚ
deriving DecidableEq

/-- One row of the transformed frame (the derived columns of `transform`). -/
structure NormalizedRow where
  date : String
  product_name : String
  product_category : String
  price_per_unit : ℚ
  product_unit : String
  product_weight : ℚ
  is_per_unit : Bool
  location : String
  city : String
  province : String
deriving DecidableEq

/-- The per-row computations of `transform` (lines 199-245): date formatting, per-unit
    detection, weight/unit extraction, name cleaning, category inference, price
    normalization with `.round(2)`, location `strip().title()` and parsing. -/
def normalizeRow (r : RawRow) : NormalizedRow :=
  let w := extractWeightAndUnit r.product_raw
  let ipu := isPerUnitFlag r.product_raw
  let name := cleanProductName r.product_raw
  let loc : String := ⟨pyTitle (pyStrip r.location.data)⟩
  let cp := parseLocation loc
  { date := formatDate r.date
    product_name := name
    product_category := inferCategory name
    price_per_unit :=
      round2 (if ipu then r.product_price
              else if w.1 > 0 then r.product_price / w.1 else r.product_price)
    product_unit := w.2
    product_weight := w.1
    is_per_unit := ipu
    location := loc
    city := cp.1
    province := cp.2 }

/-- Frame-level `transform` on a list of rows: per-row normalization, then the invalid-price filter
    `df = df[df["price_per_unit"] > 0]` (line 248). -/
def transform (rows : List RawRow) : List NormalizedRow :=
  (rows.map normalizeRow).filter (fun rec => decide (0 < rec.price_per_unit))

/-- One record of the output `prices` list (`create_json_structure`, lines 277-288). -/
structure PriceRec where
  date : String
  product_name : String
  product_category : String
  price_per_unit : ℚ
  product_unit : String
  location : String
  city : String
  province : String
deriving DecidableEq

/-- Projection of a transformed row to the fields kept in `prices`. -/
def toPriceRec (r : NormalizedRow) : PriceRec :=
  { date := r.date
    product_name := r.product_name
    product_category := r.product_category
    price_per_unit := r.price_per_unit
    product_unit := r.product_unit
    location := r.location
    city := r.city
    province := r.province }

/-- The `prices` field of `create_json_structure` applied to the transformed frame. -/
def createJsonPrices (df : List NormalizedRow) : List PriceRec := df.map toPriceRec

/-! ### Declarative (spec-side) predicates used to state the claims -/

/-- Declarative reading of the bare date pattern `^\d{4}-\d{2}$`: exactly four digits,
    a dash, two digits. -/
def IsYMShape (l : List Char) : Prop :=
  l.length = 7 ∧ l.getD 4 ' ' = '-' ∧
  (l.getD 0 ' ').isDigit = true ∧ (l.getD 1 ' ').isDigit = true ∧
  (l.getD 2 ' ').isDigit = true ∧ (l.getD 3 ' ').isDigit = true ∧
  (l.getD 5 ' ').isDigit = true ∧ (l.getD 6 ' ').isDigit = true

/-- Declarative whole-word occurrence of a keyword: `kw` occurs contiguously in `l`
    (up to ASCII lower-casing), not preceded and not followed by a word character —
    never as a substring of a larger word. -/
def OccursWB (kw l : List Char) : Prop :=
  ∃ pre mid post, l = pre ++ mid ++ post ∧ mid.map asciiLower = kw ∧
    (∀ c, pre.getLast? = some c → isWordCh c = false) ∧
    (∀ c, post.head? = some c → isWordCh c = false)

/-! ## Theorems -/

/-! ### Generic lemmas about the character tables -/

theorem lookup_mem {ps : List (Char × Char)} {a b : Char} (h : ps.lookup a = some b) :
    (a, b) ∈ ps := by
  induction ps with
  | nil => simp [List.lookup] at h
  | cons p ps ih =>
    rw [List.lookup_cons] at h
    cases hab : (a == p.1) with
    | true =>
      rw [hab] at h
      simp only [Option.some.injEq] at h
      have ha : a = p.1 := beq_iff_eq.mp hab
      subst ha h
      exact List.mem_cons_self _ _
    | false =>
      rw [hab] at h
      exact List.mem_cons_of_mem _ (ih h)

theorem upperPairs_facts : ∀ p ∈ upperPairs,
    upperPairs.lookup p.2 = none ∧ isAlphaCh p.1 = true ∧ isAlphaCh p.2 = true ∧
    isSpaceCh p.1 = false ∧ isSpaceCh p.2 = false ∧
    isWordCh p.1 = true ∧ isWordCh p.2 = true := by decide

theorem lowerPairs_facts : ∀ p ∈ lowerPairs,
    lowerPairs.lookup p.2 = none ∧ isAlphaCh p.1 = true ∧ isAlphaCh p.2 = true ∧
    isSpaceCh p.1 = false ∧ isSpaceCh p.2 = false ∧
    isWordCh p.1 = true ∧ isWordCh p.2 = true := by decide

theorem asciiUpper_idem (c : Char) : asciiUpper (asciiUpper c) = asciiUpper c := by
  cases h : upperPairs.lookup c with
  | none => simp [asciiUpper, h]
  | some d =>
    have hd := (upperPairs_facts _ (lookup_mem h)).1
    simp [asciiUpper, h, hd]

theorem asciiLower_idem (c : Char) : asciiLower (asciiLower c) = asciiLower c := by
  cases h : lowerPairs.lookup c with
  | none => simp [asciiLower, h]
  | some d =>
    have hd := (lowerPairs_facts _ (lookup_mem h)).1
    simp [asciiLower, h, hd]

theorem isAlphaCh_asciiUpper (c : Char) : isAlphaCh (asciiUpper c) = isAlphaCh c := by
  cases h : upperPairs.lookup c with
  | none => simp [asciiUpper, h]
  | some d =>
    have hf := upperPairs_facts _ (lookup_mem h)
    have hc : isAlphaCh c = true := by simp [isAlphaCh, h]
    simp [asciiUpper, h, hf.2.2.1, hc]

theorem isAlphaCh_asciiLower (c : Char) : isAlphaCh (asciiLower c) = isAlphaCh c := by
  cases h : lowerPairs.lookup c with
  | none => simp [asciiLower, h]
  | some d =>
    have hf := lowerPairs_facts _ (lookup_mem h)
    have hc : isAlphaCh c = true := by simp [isAlphaCh, h]
    simp [asciiLower, h, hf.2.2.1, hc]

theorem isSpaceCh_asciiUpper (c : Char) : isSpaceCh (asciiUpper c) = isSpaceCh c := by
  cases h : upperPairs.lookup c with
  | none => simp [asciiUpper, h]
  | some d =>
    have hf := upperPairs_facts _ (lookup_mem h)
    simp [asciiUpper, h, hf.2.2.2.2.1, hf.2.2.2.1]

theorem isSpaceCh_asciiLower (c : Char) : isSpaceCh (asciiLower c) = isSpaceCh c := by
  cases h : lowerPairs.lookup c with
  | none => simp [asciiLower, h]
  | some d =>
    have hf := lowerPairs_facts _ (lookup_mem h)
    simp [asciiLower, h, hf.2.2.2.2.1, hf.2.2.2.1]

theorem isWordCh_asciiUpper (c : Char) : isWordCh (asciiUpper c) = isWordCh c := by
  cases h : upperPairs.lookup c with
  | none => simp [asciiUpper, h]
  | some d =>
    have hf := upperPairs_facts _ (lookup_mem h)
    simp [asciiUpper, h, hf.2.2.2.2.2.2, hf.2.2.2.2.2.1]

theorem isWordCh_asciiLower (c : Char) : isWordCh (asciiLower c) = isWordCh c := by
  cases h : lowerPairs.lookup c with
  | none => simp [asciiLower, h]
  | some d =>
    have hf := lowerPairs_facts _ (lookup_mem h)
    simp [asciiLower, h, hf.2.2.2.2.2.2, hf.2.2.2.2.2.1]

/-! ### The per-unit pattern can only capture one of its eight alternatives -/

theorem tryPerUnitToken_mem {ts : List String} {l : List Char} {u : String}
    (h : tryPerUnitToken ts l = some u) : u ∈ ts := by
  induction ts with
  | nil => simp [tryPerUnitToken] at h
  | cons t ts ih =>
    rw [tryPerUnitToken] at h
    cases hm : matchCI t.data l with
    | none =>
      rw [hm] at h
      exact List.mem_cons_of_mem _ (ih h)
    | some rest =>
      rw [hm] at h
      dsimp only at h
      by_cases hs : sOptBoundary rest = true
      · rw [if_pos hs] at h
        simp only [Option.some.injEq] at h
        subst h
        exact List.mem_cons_self _ _
      · rw [if_neg hs] at h
        exact List.mem_cons_of_mem _ (ih h)

theorem perUnitAt_mem {l : List Char} {u : String} (h : perUnitAt l = some u) :
    u ∈ perUnitTokens := by
  rw [perUnitAt] at h
  cases hm : matchCI "per".data l with
  | none => rw [hm] at h; exact absurd h (by simp)
  | some l1 =>
    rw [hm] at h
    cases l1 with
    | nil => exact absurd h (by simp)
    | cons c cs =>
      dsimp only at h
      by_cases hc : isSpaceCh c = true
      · rw [if_pos hc] at h
        exact tryPerUnitToken_mem h
      · rw [if_neg hc] at h
        exact absurd h (by simp)

theorem perUnitSearch_mem {l : List Char} {u : String} (h : perUnitSearch l = some u) :
    u ∈ perUnitTokens := by
  induction l with
  | nil => simp [perUnitSearch] at h
  | cons c cs ih =>
    rw [perUnitSearch] at h
    cases ha : perUnitAt (c :: cs) with
    | some v =>
      rw [ha] at h
      simp only [Option.some.injEq] at h
      subst h
      exact perUnitAt_mem ha
    | none =>
      rw [ha] at h
      exact ih h

theorem perUnit_extract_eq (text : String) (u : String)
    (h : perUnitSearch text.data = some u) :
    extractWeightAndUnit text = (1, perUnitCanon u) := by
  rw [extractWeightAndUnit, h]

theorem perUnitCanon_kgL {u : String} (hu : u ∈ perUnitTokens) :
    perUnitCanon u = "kg" ∨ perUnitCanon u = "L" := by
  fin_cases hu <;> decide

/-- C1: for every description matching the per-unit pattern — even one that also
contains a package-size match, since the per-unit branch of
`_extract_weight_and_unit` is tried first — the extractor returns value 1.0 with
the captured unit token mapped kilogram/kg/gram/g ↦ "kg" and
litre/l/ml/millilitre ↦ "L"; in particular the returned unit is always "kg" or "L". -/
theorem c1_perUnit_extraction (text : String) (u : String)
    (h : perUnitSearch text.data = some u) :
    extractWeightAndUnit text = (1, perUnitCanon u) ∧
    ((u = "kilogram" ∨ u = "kg" ∨ u = "gram" ∨ u = "g") → perUnitCanon u = "kg") ∧
    ((u = "litre" ∨ u = "l" ∨ u = "ml" ∨ u = "millilitre") → perUnitCanon u = "L") ∧
    (extractWeightAndUnit text).1 = 1 ∧
    ((extractWeightAndUnit text).2 = "kg" ∨ (extractWeightAndUnit text).2 = "L") := by
  have he := perUnit_extract_eq text u h
  have hm := perUnitSearch_mem h
  refine ⟨he, ?_, ?_, ?_, ?_⟩
  · rintro (rfl | rfl | rfl | rfl) <;> decide
  · rintro (rfl | rfl | rfl | rfl) <;> decide
  · rw [he]
  · rw [he]
    exact perUnitCanon_kgL hm

/-- Witness for C1 at the spec's own edge-case input "500g, per kilogram": the
description has a package-size match (group 3 would be "g") but the per-unit match
wins and the extractor returns (1.0, "kg"). -/
theorem c1_perUnit_extraction_witness :
    perUnitSearch "500g, per kilogram".data = some "kilogram" ∧
    (packageSearch "500g, per kilogram".data).map (fun x => x.2) = some "g" ∧
    extractWeightAndUnit "500g, per kilogram" = (1, "kg") := by
  refine ⟨by decide, by decide, ?_⟩
  have h := (c1_perUnit_extraction "500g, per kilogram" "kilogram" (by decide)).1
  rw [h]
  decide

/-- C9: the `is_per_unit` flag computed in `transform` is true exactly when the
per-unit regex finds a match, i.e. exactly when `_extract_weight_and_unit` takes its
per-unit branch; whenever the flag is set the extracted weight is exactly 1.0 and the
unit is "kg" or "L", and whenever it is clear the extractor's result is the
package-size/fallback computation — so the division branch of the price computation
never uses a package weight for a per-unit row. -/
theorem c9_flag_coherence (desc : String) :
    (isPerUnitFlag desc = true ↔ ∃ u, perUnitSearch desc.data = some u) ∧
    (isPerUnitFlag desc = true →
      (extractWeightAndUnit desc).1 = 1 ∧
      ((extractWeightAndUnit desc).2 = "kg" ∨ (extractWeightAndUnit desc).2 = "L")) ∧
    (isPerUnitFlag desc = false →
      extractWeightAndUnit desc =
        (match packageSearch desc.data with
         | some (v, u) => packageConvert v u
         | none => (1, "unit"))) := by
  refine ⟨by simp [isPerUnitFlag, Option.isSome_iff_exists], ?_, ?_⟩
  · intro h
    obtain ⟨u, hu⟩ := Option.isSome_iff_exists.mp h
    have he := perUnit_extract_eq desc u hu
    rw [he]
    exact ⟨rfl, perUnitCanon_kgL (perUnitSearch_mem hu)⟩
  · intro h
    have hn : perUnitSearch desc.data = none := by
      rw [isPerUnitFlag] at h
      exact Option.not_isSome_iff_eq_none.mp (by simp [h])
    rw [extractWeightAndUnit, hn]

/-- Witness for C9 at the spec's end-to-end per-unit example. -/
theorem c9_flag_coherence_witness :
    (extractWeightAndUnit "Beef, ground, per kilogram").1 = 1 ∧
    ((extractWeightAndUnit "Beef, ground, per kilogram").2 = "kg" ∨
     (extractWeightAndUnit "Beef, ground, per kilogram").2 = "L") :=
  (c9_flag_coherence "Beef, ground, per kilogram").2.1 (by decide)

/-! ### C2: the price normalization rule of `transform` -/

theorem normalizeRow_price (r : RawRow) :
    (normalizeRow r).price_per_unit =
      round2 (if isPerUnitFlag r.product_raw then r.product_price
              else if (extractWeightAndUnit r.product_raw).1 > 0 then
                r.product_price / (extractWeightAndUnit r.product_raw).1
              else r.product_price) := rfl

/-- C2: for every row, the normalized `price_per_unit` is the raw price when the
description matches the per-unit pattern, otherwise the raw price divided by the
extracted weight when that weight is positive, otherwise the raw price unchanged —
in every case rounded to 2 decimal places; and for a description matching neither
pattern the extractor returns (1.0, "unit") and the price is the (rounded) raw
price. -/
theorem c2_price_per_unit (r : RawRow) :
    (isPerUnitFlag r.product_raw = true →
      (normalizeRow r).price_per_unit = round2 r.product_price) ∧
    (isPerUnitFlag r.product_raw = false →
      0 < (extractWeightAndUnit r.product_raw).1 →
      (normalizeRow r).price_per_unit =
        round2 (r.product_price / (extractWeightAndUnit r.product_raw).1)) ∧
    (isPerUnitFlag r.product_raw = false →
      ¬ 0 < (extractWeightAndUnit r.product_raw).1 →
      (normalizeRow r).price_per_unit = round2 r.product_price) ∧
    (perUnitSearch r.product_raw.data = none →
      packageSearch r.product_raw.data = none →
      extractWeightAndUnit r.product_raw = (1, "unit") ∧
      (normalizeRow r).price_per_unit = round2 r.product_price) := by
  refine ⟨?_, ?_, ?_, ?_⟩
  · intro h
    rw [normalizeRow_price, h, if_pos rfl]
  · intro h hw
    rw [normalizeRow_price, h]
    simp only [Bool.false_eq_true, if_false, gt_iff_lt, hw, if_pos]
  · intro h hw
    rw [normalizeRow_price, h]
    simp only [Bool.false_eq_true, if_false, gt_iff_lt, hw, if_neg]
  · intro h1 h2
    have hext : extractWeightAndUnit r.product_raw = (1, "unit") := by
      rw [extractWeightAndUnit, h1, h2]
    have hflag : isPerUnitFlag r.product_raw = false := by
      simp [isPerUnitFlag, h1]
    refine ⟨hext, ?_⟩
    rw [normalizeRow_price, hflag]
    simp only [Bool.false_eq_true, if_false, hext, gt_iff_lt]
    norm_num

/-- Witness for C2 at a description with neither a per-unit nor a package-size match. -/
theorem c2_price_per_unit_witness :
    extractWeightAndUnit "Eggs" = (1, "unit") ∧
    (normalizeRow ⟨"2023-01", "Canada", "Eggs", 3⟩).price_per_unit = round2 3 :=
  (c2_price_per_unit ⟨"2023-01", "Canada", "Eggs", 3⟩).2.2.2 (by decide) (by decide)

/-! ### C6: date normalization -/

theorem isYM_iff (l : List Char) : isYM l = true ↔ IsYMShape l := by
  rcases l with _ | ⟨a, _ | ⟨b, _ | ⟨c, _ | ⟨d, _ | ⟨e, _ | ⟨f, _ | ⟨g, rest⟩⟩⟩⟩⟩⟩⟩ <;>
    try (simp [isYM, IsYMShape])
  cases rest with
  | nil => simp [isYM, IsYMShape, List.getD]; tauto
  | cons h t => simp [isYM, IsYMShape, List.getD]

/-- Amended C6: `_format_date` first trims the input; it appends "-01" exactly when
the trimmed input matches the bare YYYY-MM pattern, and otherwise returns the trimmed
input (so an input with surrounding whitespace is not passed through verbatim); it
never fails, and on whitespace-free inputs this is precisely the behaviour the claim
describes, e.g. "2023-05" ↦ "2023-05-01" and "2023-05-15" ↦ itself. -/
theorem c6_format_date_amended (s : String) :
    (IsYMShape (pyStrip s.data) →
      formatDate s = (⟨pyStrip s.data⟩ : String) ++ "-01") ∧
    (¬ IsYMShape (pyStrip s.data) → formatDate s = ⟨pyStrip s.data⟩) ∧
    formatDate "2023-05" = "2023-05-01" ∧
    formatDate "2023-05-15" = "2023-05-15" := by
  refine ⟨?_, ?_, by decide, by decide⟩
  · intro h
    rw [formatDate, if_pos ((isYM_iff _).mpr h)]
  · intro h
    rw [formatDate, if_neg (fun hb => h ((isYM_iff _).mp hb))]

/-- Counterexample to C6 as stated: the input " 2023-05-15 " does not match the bare
YYYY-MM pattern yet does not pass through unchanged (it is trimmed), and the input
" 2023-05 " does not match the bare pattern yet still gets "-01" appended. -/
theorem c6_format_date_counterexample :
    formatDate " 2023-05-15 " ≠ " 2023-05-15 " ∧
    formatDate " 2023-05 " = "2023-05-01" := by decide

/-- Witness for the amended C6. -/
theorem c6_format_date_amended_witness :
    formatDate "2023-05" = (⟨pyStrip "2023-05".data⟩ : String) ++ "-01" :=
  (c6_format_date_amended "2023-05").1 ((isYM_iff _).mp (by decide))

/-! ### C10: `_parse_location` on a "City," location -/

theorem splitComma_no_comma {l : List Char} (h : ',' ∉ l) : splitComma l = [l] := by
  induction l with
  | nil => rfl
  | cons c cs ih =>
    have hc : ¬ c = ',' := fun hc => h (hc ▸ List.mem_cons_self c cs)
    rw [splitComma, if_neg hc, ih (fun hm => h (List.mem_cons_of_mem c hm))]

theorem splitComma_append {a : List Char} (b : List Char) (h : ',' ∉ a) :
    splitComma (a ++ ',' :: b) = a :: splitComma b := by
  induction a with
  | nil => simp [splitComma]
  | cons c cs ih =>
    have hc : ¬ c = ',' := fun hc => h (hc ▸ List.mem_cons_self c cs)
    rw [List.cons_append, splitComma, if_neg hc,
      ih (fun hm => h (List.mem_cons_of_mem c hm))]

theorem pyStrip_all_space {l : List Char} (h : ∀ c ∈ l, isSpaceCh c = true) :
    pyStrip l = [] := by
  have h1 : l.dropWhile isSpaceCh = [] := List.dropWhile_eq_nil_iff.mpr h
  rw [pyStrip, h1]
  rfl

/-- C10: for a location whose content is "city, trailing-whitespace" (exactly one
comma, only whitespace or nothing after it), `_parse_location` returns the trimmed
text before the comma as the city and the empty string as the province — so the
province field of a normalized record can be empty, and the comma branch strips
whitespace around both parts. -/
theorem c10_parse_location (a b : List Char) (h1 : ',' ∉ a) (h2 : ',' ∉ b)
    (h3 : ∀ c ∈ b, isSpaceCh c = true) :
    parseLocation ⟨a ++ ',' :: b⟩ = (⟨pyStrip a⟩, "") := by
  rw [parseLocation]
  show (match (splitComma (a ++ ',' :: b)).map pyStrip with
        | p0 :: p1 :: _ => ((⟨p0⟩ : String), (⟨p1⟩ : String))
        | _ => ("", (⟨a ++ ',' :: b⟩ : String))) = _
  rw [splitComma_append b h1, splitComma_no_comma h2]
  simp only [List.map]
  rw [pyStrip_all_space h3]

/-- Witness for C10: `_parse_location "Toronto,"` yields city "Toronto" and an empty
province. -/
theorem c10_parse_location_witness : parseLocation "Toronto," = ("Toronto", "") := by
  have h := c10_parse_location "Toronto".data [] (by decide) (by decide) (by decide)
  exact h

/-! ### C3: the package-size branch -/

theorem pkg_extract_eq (text : String) (v : ℚ) (u : String)
    (hper : perUnitSearch text.data = none)
    (hpkg : packageSearch text.data = some (v, u)) :
    extractWeightAndUnit text = packageConvert v u := by
  rw [extractWeightAndUnit, hper, hpkg]

/-- Amended C3: for a description with no per-unit match whose first package-size
match captures value N and a unit word, the extractor returns (N/1000, "kg") for the
gram family, (N/1000, "L") for the millilitre family, (N, "L") for the litre family
and (N, "kg") for the kilogram family; and for the gram family, when N > 0, the
normalized price is the raw price divided by N/1000 *rounded to 2 decimals*
(for N = 0 the divisor guard leaves the raw price unchanged instead, so the claim's
unguarded formula price = raw/(N/1000) holds only for N > 0, and only up to
rounding). -/
theorem c3_package_families (text : String) (v : ℚ) (u : String)
    (hper : perUnitSearch text.data = none)
    (hpkg : packageSearch text.data = some (v, u)) :
    ((u = "g" ∨ u = "gram" ∨ u = "grams") →
      extractWeightAndUnit text = (v / 1000, "kg") ∧
      (0 < v → ∀ (d loc : String) (p : ℚ),
        (normalizeRow ⟨d, loc, text, p⟩).price_per_unit = round2 (p / (v / 1000)))) ∧
    ((u = "ml" ∨ u = "millilitre" ∨ u = "millilitres") →
      extractWeightAndUnit text = (v / 1000, "L")) ∧
    ((u = "l" ∨ u = "litre" ∨ u = "litres") →
      extractWeightAndUnit text = (v, "L")) ∧
    ((u = "kg" ∨ u = "kilogram" ∨ u = "kilograms") →
      extractWeightAndUnit text = (v, "kg")) := by
  have he := pkg_extract_eq text v u hper hpkg
  have hflag : isPerUnitFlag text = false := by simp [isPerUnitFlag, hper]
  refine ⟨?_, ?_, ?_, ?_⟩
  · intro h
    have hpc : packageConvert v u = (v / 1000, "kg") := by
      rcases h with rfl | rfl | rfl
      · rw [packageConvert, if_pos (Or.inl rfl)]
      · rw [packageConvert, if_pos (Or.inr ⟨by decide, by decide⟩)]
      · rw [packageConvert, if_pos (Or.inr ⟨by decide, by decide⟩)]
    have hext := he.trans hpc
    refine ⟨hext, ?_⟩
    intro hv d loc p
    rw [normalizeRow_price]
    have hw : (0 : ℚ) < v / 1000 := by positivity
    dsimp only at hext ⊢
    rw [hflag]
    simp only [Bool.false_eq_true, if_false, hext, gt_iff_lt, hw, if_pos]
  · intro h
    have hpc : packageConvert v u = (v / 1000, "L") := by
      rcases h with rfl | rfl | rfl
      · rw [packageConvert, if_neg (by decide), if_pos (Or.inl (by decide))]
      · rw [packageConvert, if_neg (by decide), if_pos (Or.inr (by decide))]
      · rw [packageConvert, if_neg (by decide), if_pos (Or.inr (by decide))]
    exact he.trans hpc
  · intro h
    have hpc : packageConvert v u = (v, "L") := by
      rcases h with rfl | rfl | rfl
      · rw [packageConvert, if_neg (by decide), if_neg (by decide), if_pos (Or.inl rfl)]
      · rw [packageConvert, if_neg (by decide), if_neg (by decide), if_pos (Or.inr (by decide))]
      · rw [packageConvert, if_neg (by decide), if_neg (by decide), if_pos (Or.inr (by decide))]
    exact he.trans hpc
  · intro h
    have hpc : packageConvert v u = (v, "kg") := by
      rcases h with rfl | rfl | rfl <;>
        rw [packageConvert, if_neg (by decide), if_neg (by decide), if_neg (by decide)]
    exact he.trans hpc

/-- Counterexample to C3 as stated: for the description "0 g" (captured N = 0) with
raw price 2 the pipeline keeps the raw price (the weight-positivity guard blocks the
division), so price_per_unit = 2 while the claim's formula raw/(N/1000) does not
equal 2; and for "3 g" with raw price 1 the pipeline yields 333.33, the *rounded*
value of 1/(3/1000), not the claimed exact quotient. -/
theorem c3_package_counterexample :
    (normalizeRow ⟨"2023-01", "Canada", "0 g", 2⟩).price_per_unit = 2 ∧
    (2 : ℚ) / ((0 : ℚ) / 1000) ≠ 2 ∧
    (normalizeRow ⟨"2023-01", "Canada", "3 g", 1⟩).price_per_unit = 33333 / 100 ∧
    (33333 : ℚ) / 100 ≠ (1 : ℚ) / ((3 : ℚ) / 1000) := by
  have h0 : extractWeightAndUnit "0 g" = (0, "kg") := by
    have he := pkg_extract_eq "0 g" (ratOfNumber ['0'] []) "g" (by decide) rfl
    rw [he, show ratOfNumber ['0'] [] = 0 from rfl, packageConvert, if_pos (Or.inl rfl)]
    norm_num
  have h3 : extractWeightAndUnit "3 g" = (3 / 1000, "kg") := by
    have he := pkg_extract_eq "3 g" (ratOfNumber ['3'] []) "g" (by decide) rfl
    rw [he, show ratOfNumber ['3'] [] = ((3 : ℕ) : ℚ) from rfl, packageConvert,
      if_pos (Or.inl rfl)]
    norm_num
  refine ⟨?_, by norm_num, ?_, ?_⟩
  · rw [normalizeRow_price]
    dsimp only
    rw [show isPerUnitFlag "0 g" = false from by decide]
    simp only [Bool.false_eq_true, if_false, h0, gt_iff_lt]
    norm_num [round2, rhe]
  · rw [normalizeRow_price]
    dsimp only
    rw [show isPerUnitFlag "3 g" = false from by decide]
    simp only [Bool.false_eq_true, if_false, h3, gt_iff_lt]
    rw [if_pos (by norm_num)]
    rw [show (1 : ℚ) / (3 / 1000) = 1000 / 3 by norm_num]
    norm_num [round2, rhe, Int.floor_eq_iff]
  · intro h
    rw [div_div_eq_mul_div, one_mul] at h
    norm_num at h

/-- Witness for the amended C3 at "500 grams" with raw price 2. -/
theorem c3_package_families_witness :
    extractWeightAndUnit "500 grams" = (ratOfNumber ['5', '0', '0'] [] / 1000, "kg") ∧
    (normalizeRow ⟨"2023-01", "Canada", "500 grams", 2⟩).price_per_unit
      = round2 (2 / (ratOfNumber ['5', '0', '0'] [] / 1000)) := by
  have h := (c3_package_families "500 grams" (ratOfNumber ['5', '0', '0'] []) "grams"
    (by decide) rfl).1 (Or.inr (Or.inr rfl))
  refine ⟨h.1, h.2 ?_ "2023-01" "Canada" 2⟩
  rw [show ratOfNumber ['5', '0', '0'] [] = ((500 : ℕ) : ℚ) from rfl]
  norm_num

/-! ### C4: no non-positive price survives into the output `prices` list -/

/-- C4: every record in the `prices` list of the JSON structure built from the
transformed frame has `price_per_unit > 0`; rows failing the filter at line 248 are
silently dropped before `create_json_structure` ever sees them. -/
theorem c4_positive_prices (rows : List RawRow) (rec : PriceRec)
    (h : rec ∈ createJsonPrices (transform rows)) : 0 < rec.price_per_unit := by
  rw [createJsonPrices] at h
  obtain ⟨nr, hnr, rfl⟩ := List.mem_map.mp h
  rw [transform] at hnr
  have hp := (List.mem_filter.mp hnr).2
  simp only [decide_eq_true_eq] at hp
  exact hp

/-- Witness for C4: the spec's end-to-end example row survives the filter and its
output record has a positive normalized price. -/
theorem c4_positive_prices_witness :
    0 < (toPriceRec (normalizeRow
      ⟨"2023-01", "toronto, ontario", "Potatoes, 1 kilogram", 2⟩)).price_per_unit := by
  have hext : extractWeightAndUnit "Potatoes, 1 kilogram" = (1, "kg") := by decide
  have hppu : (normalizeRow
      ⟨"2023-01", "toronto, ontario", "Potatoes, 1 kilogram", 2⟩).price_per_unit = 2 := by
    rw [normalizeRow_price]
    dsimp only
    rw [show isPerUnitFlag "Potatoes, 1 kilogram" = false from by decide]
    simp only [Bool.false_eq_true, if_false, hext, gt_iff_lt]
    rw [if_pos (by norm_num)]
    norm_num [round2, rhe]
  have htr : transform [⟨"2023-01", "toronto, ontario", "Potatoes, 1 kilogram", 2⟩]
      = [normalizeRow ⟨"2023-01", "toronto, ontario", "Potatoes, 1 kilogram", 2⟩] := by
    rw [transform]
    simp only [List.map_cons, List.map_nil, List.filter_cons, List.filter_nil]
    rw [if_pos (decide_eq_true (by rw [hppu]; norm_num))]
  refine c4_positive_prices
    [⟨"2023-01", "toronto, ontario", "Potatoes, 1 kilogram", 2⟩] _ ?_
  rw [htr, createJsonPrices]
  exact List.mem_map_of_mem toPriceRec (List.mem_singleton_self _)

/-! ### C5: whole-word keyword matching and first-match category classification -/

theorem boundaryB_iff {r : List Char} :
    boundaryB r = true ↔ ∀ c, r.head? = some c → isWordCh c = false := by
  cases r with
  | nil => simp [boundaryB]
  | cons c cs => simp [boundaryB, Bool.not_eq_true']

theorem matchCI_some_iff {p : List Char} : ∀ {l r : List Char},
    matchCI p l = some r ↔ ∃ m, l = m ++ r ∧ m.map asciiLower = p := by
  induction p with
  | nil =>
    intro l r
    simp only [matchCI, Option.some.injEq]
    constructor
    · rintro rfl
      exact ⟨[], rfl, rfl⟩
    · rintro ⟨m, h1, h2⟩
      have hm : m = [] := List.map_eq_nil_iff.mp h2
      subst hm
      simpa using h1
  | cons a p ih =>
    intro l r
    cases l with
    | nil =>
      constructor
      · intro h
        exact absurd h (by simp [matchCI])
      · rintro ⟨m, h1, h2⟩
        cases m with
        | nil => simp at h2
        | cons x xs => simp at h1
    | cons c cs =>
      rw [matchCI]
      by_cases hc : asciiLower c = a
      · rw [if_pos hc, ih]
        constructor
        · rintro ⟨m, rfl, rfl⟩
          exact ⟨c :: m, rfl, by simp [hc]⟩
        · rintro ⟨m, h1, h2⟩
          cases m with
          | nil => simp at h2
          | cons x xs =>
            simp only [List.cons_append, List.cons.injEq] at h1
            simp only [List.map_cons, List.cons.injEq] at h2
            exact ⟨xs, h1.2, h2.2⟩
      · rw [if_neg hc]
        constructor
        · intro h
          exact absurd h (by simp)
        · rintro ⟨m, h1, h2⟩
          cases m with
          | nil => simp at h2
          | cons x xs =>
            simp only [List.cons_append, List.cons.injEq] at h1
            simp only [List.map_cons, List.cons.injEq] at h2
            exact absurd (h1.1 ▸ h2.1) hc

theorem wbSearchAux_iff {kw : List Char} (hkw : kw ≠ []) :
    ∀ (l : List Char) (prevW : Bool),
    wbSearchAux kw prevW l = true ↔
      ∃ pre mid post, l = pre ++ mid ++ post ∧ mid.map asciiLower = kw ∧
        (pre = [] → prevW = false) ∧
        (∀ c, pre.getLast? = some c → isWordCh c = false) ∧
        (∀ c, post.head? = some c → isWordCh c = false) := by
  intro l
  induction l with
  | nil =>
    intro prevW
    constructor
    · intro h
      simp [wbSearchAux] at h
    · rintro ⟨pre, mid, post, h1, h2, -, -, -⟩
      have h1' : (pre ++ mid) ++ post = [] := by simpa [List.append_assoc] using h1.symm
      rw [List.append_eq_nil] at h1'
      have hmid : mid = [] := (List.append_eq_nil.mp h1'.1).2
      subst hmid
      exact absurd h2.symm hkw
  | cons c cs ih =>
    intro prevW
    rw [wbSearchAux]
    constructor
    · intro h
      rw [Bool.or_eq_true] at h
      rcases h with h | h
      · rw [Bool.and_eq_true] at h
        obtain ⟨hp, hmb⟩ := h
        have hp' : prevW = false := by simpa using hp
        cases hm : matchCI kw (c :: cs) with
        | none => rw [hm] at hmb; exact absurd hmb (by simp)
        | some rest =>
          rw [hm] at hmb
          obtain ⟨m, hsplit, hmap⟩ := matchCI_some_iff.mp hm
          exact ⟨[], m, rest, by simpa using hsplit, hmap, fun _ => hp',
            by simp, boundaryB_iff.mp hmb⟩
      · obtain ⟨pre, mid, post, h1, h2, h3, h4, h5⟩ := (ih (isWordCh c)).mp h
        refine ⟨c :: pre, mid, post, by simp [h1], h2, by simp, ?_, h5⟩
        intro d hd
        cases pre with
        | nil =>
          simp only [List.getLast?_singleton, Option.some.injEq] at hd
          subst hd
          exact h3 rfl
        | cons p ps =>
          rw [List.getLast?_cons_cons] at hd
          exact h4 d hd
    · rintro ⟨pre, mid, post, h1, h2, h3, h4, h5⟩
      rw [Bool.or_eq_true]
      cases pre with
      | nil =>
        left
        simp only [List.nil_append] at h1
        have hm : matchCI kw (c :: cs) = some post := matchCI_some_iff.mpr ⟨mid, h1, h2⟩
        rw [Bool.and_eq_true]
        refine ⟨by simp [h3 rfl], ?_⟩
        rw [hm]
        exact boundaryB_iff.mpr h5
      | cons p ps =>
        right
        simp only [List.cons_append, List.cons.injEq] at h1
        apply (ih (isWordCh c)).mpr
        refine ⟨ps, mid, post, h1.2, h2, ?_, ?_, h5⟩
        · intro hps
          subst hps
          have hc := h4 p (by simp)
          rw [h1.1]
          exact hc
        · intro d hd
          apply h4 d
          cases ps with
          | nil => simp at hd
          | cons q qs => rw [List.getLast?_cons_cons]; exact hd

theorem wbSearch_occurs {kw l : List Char} (hkw : kw ≠ []) :
    wbSearchAux kw false l = true ↔ OccursWB kw l := by
  rw [wbSearchAux_iff hkw l false, OccursWB]
  refine exists_congr fun pre => exists_congr fun mid => exists_congr fun post => ?_
  constructor
  · rintro ⟨h1, h2, -, h4, h5⟩
    exact ⟨h1, h2, h4, h5⟩
  · rintro ⟨h1, h2, h4, h5⟩
    exact ⟨h1, h2, fun _ => rfl, h4, h5⟩

theorem kwLoop_iff {nl : List Char} : ∀ {kws : List String},
    (∀ kw ∈ kws, kw.data ≠ []) →
    (kwLoop nl kws = true ↔ ∃ kw ∈ kws, OccursWB kw.data nl) := by
  intro kws
  induction kws with
  | nil => simp [kwLoop]
  | cons k ks ih =>
    intro h
    rw [kwLoop, Bool.or_eq_true,
      wbSearch_occurs (h k (List.mem_cons_self k ks)),
      ih (fun kw hkw => h kw (List.mem_cons_of_mem _ hkw))]
    constructor
    · rintro (h1 | ⟨kw, hkw, h1⟩)
      · exact ⟨k, List.mem_cons_self k ks, h1⟩
      · exact ⟨kw, List.mem_cons_of_mem _ hkw, h1⟩
    · rintro ⟨kw, hkw, h1⟩
      rcases List.mem_cons.mp hkw with rfl | hkw
      · exact Or.inl h1
      · exact Or.inr ⟨kw, hkw, h1⟩

theorem catLoop_eq_iff {nl : List Char} :
    ∀ (L : List (String × List String)),
    (∀ p ∈ L, ∀ kw ∈ p.2, kw.data ≠ []) →
    ∀ c, (catLoop nl L = c ↔
      ((c = "other" ∧ ∀ p ∈ L, ∀ kw ∈ p.2, ¬ OccursWB kw.data nl) ∨
       (∃ pre q suf, L = pre ++ q :: suf ∧ c = q.1 ∧
         (∃ kw ∈ q.2, OccursWB kw.data nl) ∧
         ∀ p ∈ pre, ∀ kw ∈ p.2, ¬ OccursWB kw.data nl))) := by
  intro L
  induction L with
  | nil =>
    intro _ c
    rw [catLoop]
    constructor
    · rintro rfl
      exact Or.inl ⟨rfl, by simp⟩
    · rintro (⟨rfl, -⟩ | ⟨pre, q, suf, h1, -⟩)
      · rfl
      · exact absurd h1 (by simp)
  | cons hd L ih =>
    intro hne c
    obtain ⟨cat, kws⟩ := hd
    have hne1 : ∀ kw ∈ kws, kw.data ≠ [] := fun kw hkw =>
      hne (cat, kws) (List.mem_cons_self _ _) kw hkw
    have hne2 : ∀ p ∈ L, ∀ kw ∈ p.2, kw.data ≠ [] := fun p hp =>
      hne p (List.mem_cons_of_mem _ hp)
    rw [catLoop]
    by_cases hk : kwLoop nl kws = true
    · rw [if_pos hk]
      have hocc := (kwLoop_iff hne1).mp hk
      constructor
      · rintro rfl
        exact Or.inr ⟨[], (cat, kws), L, rfl, rfl, hocc, by simp⟩
      · rintro (⟨rfl, hno⟩ | ⟨pre, q, suf, h1, h2, h3, h4⟩)
        · obtain ⟨kw, hkw, hOcc⟩ := hocc
          exact absurd hOcc (hno (cat, kws) (List.mem_cons_self _ _) kw hkw)
        · cases pre with
          | nil =>
            simp only [List.nil_append, List.cons.injEq] at h1
            rw [h2, ← h1.1]
          | cons p ps =>
            simp only [List.cons_append, List.cons.injEq] at h1
            obtain ⟨kw, hkw, hOcc⟩ := hocc
            have := h4 p (List.mem_cons_self _ _)
            rw [← h1.1] at this
            exact absurd hOcc (this kw hkw)
    · rw [if_neg hk]
      have hnone : ∀ kw ∈ kws, ¬ OccursWB kw.data nl := fun kw hkw hOcc =>
        hk ((kwLoop_iff hne1).mpr ⟨kw, hkw, hOcc⟩)
      rw [ih hne2 c]
      constructor
      · rintro (⟨rfl, hno⟩ | ⟨pre, q, suf, h1, h2, h3, h4⟩)
        · refine Or.inl ⟨rfl, ?_⟩
          intro p hp
          rcases List.mem_cons.mp hp with rfl | hp
          · exact hnone
          · exact hno p hp
        · refine Or.inr ⟨(cat, kws) :: pre, q, suf, by rw [h1]; rfl, h2, h3, ?_⟩
          intro p hp
          rcases List.mem_cons.mp hp with rfl | hp
          · exact hnone
          · exact h4 p hp
      · rintro (⟨rfl, hno⟩ | ⟨pre, q, suf, h1, h2, h3, h4⟩)
        · exact Or.inl ⟨rfl, fun p hp => hno p (List.mem_cons_of_mem _ hp)⟩
        · cases pre with
          | nil =>
            simp only [List.nil_append, List.cons.injEq] at h1
            obtain ⟨kw, hkw, hOcc⟩ := h3
            rw [← h1.1] at hkw
            exact absurd hOcc (hnone kw hkw)
          | cons p ps =>
            simp only [List.cons_append, List.cons.injEq] at h1
            exact Or.inr ⟨ps, q, suf, h1.2, h2, h3,
              fun r hr => h4 r (List.mem_cons_of_mem _ hr)⟩

/-- C5: the classifier lower-cases the name and returns the category of the first
pair (category, keyword), scanning categories in declared order, whose keyword
occurs in the name at whole-word boundaries (never as a substring of a larger word),
and "other" when no keyword occurs; in particular "Pork Loin Chop" classifies as
"pork" via the keyword "pork loin". -/
theorem c5_infer_category :
    (∀ (name c : String),
      inferCategory name = c ↔
        ((c = "other" ∧ ∀ p ∈ CATEGORY_KEYWORDS, ∀ kw ∈ p.2,
            ¬ OccursWB kw.data (name.data.map asciiLower)) ∨
         (∃ pre q suf, CATEGORY_KEYWORDS = pre ++ q :: suf ∧ c = q.1 ∧
            (∃ kw ∈ q.2, OccursWB kw.data (name.data.map asciiLower)) ∧
            ∀ p ∈ pre, ∀ kw ∈ p.2, ¬ OccursWB kw.data (name.data.map asciiLower)))) ∧
    inferCategory "Pork Loin Chop" = "pork" := by
  refine ⟨?_, by decide⟩
  intro name c
  rw [inferCategory]
  exact catLoop_eq_iff CATEGORY_KEYWORDS (by decide) c

/-- Witness for C5: the concrete classification pinned by the spec. -/
theorem c5_infer_category_witness : inferCategory "Pork Loin Chop" = "pork" :=
  c5_infer_category.2

/-! ### C8: character classes of the cleaner's output -/

theorem isSpaceCh_titleChar (b : Bool) (c : Char) :
    isSpaceCh (if isAlphaCh c then (if b then asciiLower c else asciiUpper c) else c)
      = isSpaceCh c := by
  by_cases ha : isAlphaCh c = true
  · rw [if_pos ha]
    cases b
    · simp [isSpaceCh_asciiUpper]
    · simp [isSpaceCh_asciiLower]
  · rw [if_neg ha]

theorem isWordCh_titleChar (b : Bool) (c : Char) :
    isWordCh (if isAlphaCh c then (if b then asciiLower c else asciiUpper c) else c)
      = isWordCh c := by
  by_cases ha : isAlphaCh c = true
  · rw [if_pos ha]
    cases b
    · simp [isWordCh_asciiUpper]
    · simp [isWordCh_asciiLower]
  · rw [if_neg ha]

theorem isAlphaCh_titleChar (b : Bool) (c : Char) :
    isAlphaCh (if isAlphaCh c then (if b then asciiLower c else asciiUpper c) else c)
      = isAlphaCh c := by
  by_cases ha : isAlphaCh c = true
  · rw [if_pos ha]
    cases b
    · simp [isAlphaCh_asciiUpper]
    · simp [isAlphaCh_asciiLower]
  · rw [if_neg ha]

theorem cwAux_nil (m : Bool) : cwAux m [] = [] := by cases m <;> rfl

theorem cwAux_true_cons (c : Char) (cs : List Char) :
    cwAux true (c :: cs) = if isSpaceCh c then cwAux true cs else c :: cwAux false cs := rfl

theorem cwAux_false_single (c : Char) : cwAux false [c] = [c] := by
  show (if isSpaceCh c = true then [c] else [c]) = [c]
  exact ite_self _

theorem cwAux_false_pair (c c2 : Char) (cs2 : List Char) :
    cwAux false (c :: c2 :: cs2) =
      if isSpaceCh c then
        (if isSpaceCh c2 then ' ' :: cwAux true (c2 :: cs2) else c :: cwAux false (c2 :: cs2))
      else c :: cwAux false (c2 :: cs2) := rfl

theorem cwAux_mem : ∀ (l : List Char) (m : Bool) (x : Char),
    x ∈ cwAux m l → x ∈ l ∨ x = ' ' := by
  intro l
  induction l with
  | nil => intro m x hx; rw [cwAux_nil] at hx; exact absurd hx (by simp)
  | cons c cs ih =>
    intro m x hx
    cases m with
    | true =>
      rw [cwAux_true_cons] at hx
      by_cases hsp : isSpaceCh c = true
      · rw [if_pos hsp] at hx
        rcases ih true x hx with h | h
        · exact Or.inl (List.mem_cons_of_mem _ h)
        · exact Or.inr h
      · rw [if_neg hsp] at hx
        rcases List.mem_cons.mp hx with rfl | hx
        · exact Or.inl (List.mem_cons_self _ _)
        · rcases ih false x hx with h | h
          · exact Or.inl (List.mem_cons_of_mem _ h)
          · exact Or.inr h
    | false =>
      cases cs with
      | nil =>
        rw [cwAux_false_single] at hx
        rcases List.mem_singleton.mp hx with rfl
        exact Or.inl (List.mem_cons_self _ _)
      | cons c2 cs2 =>
        rw [cwAux_false_pair] at hx
        by_cases hsp : isSpaceCh c = true
        · rw [if_pos hsp] at hx
          by_cases hsp2 : isSpaceCh c2 = true
          · rw [if_pos hsp2] at hx
            rcases List.mem_cons.mp hx with rfl | hx
            · exact Or.inr rfl
            · rcases ih true x hx with h | h
              · exact Or.inl (List.mem_cons_of_mem _ h)
              · exact Or.inr h
          · rw [if_neg hsp2] at hx
            rcases List.mem_cons.mp hx with rfl | hx
            · exact Or.inl (List.mem_cons_self _ _)
            · rcases ih false x hx with h | h
              · exact Or.inl (List.mem_cons_of_mem _ h)
              · exact Or.inr h
        · rw [if_neg hsp] at hx
          rcases List.mem_cons.mp hx with rfl | hx
          · exact Or.inl (List.mem_cons_self _ _)
          · rcases ih false x hx with h | h
            · exact Or.inl (List.mem_cons_of_mem _ h)
            · exact Or.inr h

theorem pyStrip_mem {l : List Char} {x : Char} (h : x ∈ pyStrip l) : x ∈ l := by
  rw [pyStrip] at h
  rw [List.mem_reverse] at h
  have h1 := (List.dropWhile_sublist _).mem h
  rw [List.mem_reverse] at h1
  exact (List.dropWhile_sublist _).mem h1

theorem titleAux_mem : ∀ (l : List Char) (b : Bool) (x : Char),
    x ∈ titleAux b l → ∃ c ∈ l, x = c ∨ x = asciiUpper c ∨ x = asciiLower c := by
  intro l
  induction l with
  | nil => intro b x hx; simp [titleAux] at hx
  | cons c cs ih =>
    intro b x hx
    rw [titleAux] at hx
    rcases List.mem_cons.mp hx with rfl | hx
    · refine ⟨c, List.mem_cons_self _ _, ?_⟩
      by_cases ha : isAlphaCh c = true
      · rw [if_pos ha]
        cases b
        · exact Or.inr (Or.inl rfl)
        · exact Or.inr (Or.inr rfl)
      · rw [if_neg ha]
        exact Or.inl rfl
    · obtain ⟨d, hd, hor⟩ := ih (isAlphaCh c) x hx
      exact ⟨d, List.mem_cons_of_mem _ hd, hor⟩

theorem clean_chars (s : String) :
    ∀ c ∈ (cleanProductName s).data, (isWordCh c || isSpaceCh c) = true := by
  intro c hc
  have hc' : c ∈ pyTitle (pyStrip (collapseWs
      ((parenSub (cleanSub (perStrip s.data))).filter
        (fun c => isWordCh c || isSpaceCh c)))) := hc
  obtain ⟨d, hd, hor⟩ := titleAux_mem _ _ _ hc'
  have hd2 := pyStrip_mem hd
  have hclass : (isWordCh d || isSpaceCh d) = true := by
    rcases cwAux_mem _ _ _ hd2 with h | rfl
    · simpa using (List.mem_filter.mp h).2
    · decide
  rcases hor with rfl | rfl | rfl
  · exact hclass
  · rw [isWordCh_asciiUpper, isSpaceCh_asciiUpper]
    exact hclass
  · rw [isWordCh_asciiLower, isSpaceCh_asciiLower]
    exact hclass

/-- Amended C8: the cleaner's output never contains a parenthesis character (every
output character is a word character or whitespace), so no parenthetical "(...)"
content survives; the claim's further assertions — no digits and no bare unit
nouns — do not hold for arbitrary inputs. -/
theorem c8_cleaner_chars_amended (s : String) :
    (∀ c ∈ (cleanProductName s).data, (isWordCh c || isSpaceCh c) = true) ∧
    '(' ∉ (cleanProductName s).data ∧ ')' ∉ (cleanProductName s).data := by
  refine ⟨clean_chars s, fun h => ?_, fun h => ?_⟩
  · exact absurd (clean_chars s '(' h) (by decide)
  · exact absurd (clean_chars s ')' h) (by decide)

/-- Counterexample to C8 as stated: the input "5" cleans to "5", which contains a
digit, and the input "gra(x)m" cleans to "Gram" — a bare unit noun (the unit-noise
pattern matches the whole cleaned, lower-cased name). -/
theorem c8_cleaner_counterexample :
    ('5' ∈ (cleanProductName "5").data ∧ Char.isDigit '5' = true) ∧
    cleanProductName "gra(x)m" = "Gram" ∧
    (garbageAt false ((cleanProductName "gra(x)m").data.map asciiLower)).isSome = true := by
  refine ⟨⟨?_, by decide⟩, by decide, by decide⟩
  decide

/-! ### C7: idempotence of the cleaner on pattern-free output -/

theorem head?_dropWhile_not {p : Char → Bool} : ∀ {l : List Char} {c : Char},
    (l.dropWhile p).head? = some c → p c = false := by
  intro l
  induction l with
  | nil => intro c h; simp [List.dropWhile] at h
  | cons a as ih =>
    intro c h
    rw [List.dropWhile_cons] at h
    by_cases hp : p a = true
    · rw [if_pos hp] at h
      exact ih h
    · rw [if_neg hp] at h
      simp only [List.head?_cons, Option.some.injEq] at h
      subst h
      simpa using hp

theorem dropWhile_head_eq_self {p : Char → Bool} {l : List Char}
    (h : ∀ c, l.head? = some c → p c = false) : l.dropWhile p = l := by
  cases l with
  | nil => rfl
  | cons a as => rw [List.dropWhile_cons, if_neg (by simp [h a rfl])]

theorem perStrip_no_match : ∀ {l : List Char}, perHasMatch l = false → perStrip l = l := by
  intro l
  induction l with
  | nil => intro _; rfl
  | cons c cs ih =>
    intro h
    rw [perHasMatch] at h
    cases hp : perHeadAt (c :: cs) with
    | none =>
      rw [hp] at h
      simp only [Bool.false_or] at h
      rw [perStrip, hp]
      exact congrArg (c :: ·) (ih h)
    | some l3 =>
      rw [hp] at h
      simp only [Bool.or_eq_false_iff] at h
      rw [perStrip, hp]
      dsimp only
      rw [if_neg (by simp [h.1])]
      exact congrArg (c :: ·) (ih h.2)

theorem cleanSubFuel_no_match : ∀ (fuel : Nat) (prevW : Bool) (l : List Char),
    cleanScanMatch prevW l = false → cleanSubFuel fuel prevW l = l := by
  intro fuel
  induction fuel with
  | zero => intro _ _ _; rfl
  | succ n ih =>
    intro prevW l h
    cases l with
    | nil => rfl
    | cons c cs =>
      rw [cleanScanMatch] at h
      cases hm : cleanMatchAt prevW (c :: cs) with
      | some rest => rw [hm] at h; simp at h
      | none =>
        rw [hm] at h
        simp only [Option.isSome_none, Bool.false_or] at h
        rw [cleanSubFuel, hm]
        exact congrArg (c :: ·) (ih _ _ h)

theorem psAux_no_paren : ∀ {l : List Char}, (∀ c ∈ l, ¬ c = '(') → psAux none l = l := by
  intro l
  induction l with
  | nil => intro _; rfl
  | cons c cs ih =>
    intro h
    rw [psAux, if_neg (h c (List.mem_cons_self _ _))]
    exact congrArg (c :: ·) (ih (fun d hd => h d (List.mem_cons_of_mem _ hd)))

theorem cwAux_true_eq : ∀ l : List Char, cwAux true l = cwAux false (l.dropWhile isSpaceCh) := by
  intro l
  induction l with
  | nil => rfl
  | cons c cs ih =>
    rw [cwAux_true_cons, List.dropWhile_cons]
    by_cases hsp : isSpaceCh c = true
    · rw [if_pos hsp, if_pos hsp, ih]
    · rw [if_neg hsp, if_neg hsp]
      cases cs with
      | nil => rw [cwAux_nil, cwAux_false_single]
      | cons c2 cs2 => rw [cwAux_false_pair, if_neg hsp]

theorem cw_head_eq (l : List Char) (h : ∀ d, l.head? = some d → isSpaceCh d = false) :
    (cwAux false l).head? = l.head? := by
  cases l with
  | nil => rfl
  | cons c cs =>
    have hc : isSpaceCh c = false := h c rfl
    cases cs with
    | nil => rw [cwAux_false_single]
    | cons c2 cs2 =>
      rw [cwAux_false_pair, if_neg (by simp [hc])]
      rfl

theorem cwAux_chain (n : Nat) : ∀ (l : List Char), l.length ≤ n →
    List.Chain' (fun a b => (isSpaceCh a && isSpaceCh b) = false) (cwAux false l) := by
  induction n with
  | zero =>
    intro l hl
    have hl0 : l = [] := List.length_eq_zero.mp (Nat.le_zero.mp hl)
    subst hl0
    simp [cwAux_nil]
  | succ n ih =>
    intro l hl
    cases l with
    | nil => simp [cwAux_nil]
    | cons c cs =>
      cases cs with
      | nil =>
        rw [cwAux_false_single]
        simp
      | cons c2 cs2 =>
        rw [cwAux_false_pair]
        by_cases hsp : isSpaceCh c = true
        · rw [if_pos hsp]
          by_cases hsp2 : isSpaceCh c2 = true
          · rw [if_pos hsp2, cwAux_true_eq]
            apply List.chain'_cons'.mpr
            constructor
            · intro h hh
              have hy : ∀ d, ((c2 :: cs2).dropWhile isSpaceCh).head? = some d →
                  isSpaceCh d = false := fun d hd => head?_dropWhile_not hd
              rw [cw_head_eq _ hy] at hh
              simp [hy h hh]
            · apply ih
              have h1 := (List.dropWhile_sublist (l := c2 :: cs2) isSpaceCh).length_le
              simp only [List.length_cons] at hl h1 ⊢
              omega
          · rw [if_neg hsp2]
            apply List.chain'_cons'.mpr
            refine ⟨?_, ih _ (by simp only [List.length_cons] at hl ⊢; omega)⟩
            intro h hh
            have hy : ∀ d, (c2 :: cs2).head? = some d → isSpaceCh d = false := by
              intro d hd
              simp only [List.head?_cons, Option.some.injEq] at hd
              subst hd
              simpa using hsp2
            rw [cw_head_eq _ hy] at hh
            simp [hy h hh]
        · rw [if_neg hsp]
          apply List.chain'_cons'.mpr
          refine ⟨?_, ih _ (by simp only [List.length_cons] at hl ⊢; omega)⟩
          intro h _
          have hc : isSpaceCh c = false := by simpa using hsp
          simp [hc]

theorem cwAux_of_chain : ∀ l : List Char,
    List.Chain' (fun a b => (isSpaceCh a && isSpaceCh b) = false) l → cwAux false l = l := by
  intro l
  induction l with
  | nil => intro _; rfl
  | cons c cs ih =>
    intro h
    cases cs with
    | nil => exact cwAux_false_single c
    | cons c2 cs2 =>
      have hR := (List.chain'_cons.mp h).1
      have htail := (List.chain'_cons.mp h).2
      rw [cwAux_false_pair]
      by_cases hsp : isSpaceCh c = true
      · have hsp2 : isSpaceCh c2 = false := by
          cases h2 : isSpaceCh c2
          · rfl
          · rw [hsp, h2] at hR
            simp at hR
        rw [if_pos hsp, if_neg (by simp [hsp2]), ih htail]
      · rw [if_neg hsp, ih htail]

theorem chain_symm_rev {l : List Char}
    (h : List.Chain' (fun a b => (isSpaceCh a && isSpaceCh b) = false) l) :
    List.Chain' (fun a b => (isSpaceCh a && isSpaceCh b) = false) l.reverse := by
  apply List.chain'_reverse.mpr
  refine h.imp fun a b hab => ?_
  rw [Bool.and_comm] at hab
  exact hab

theorem pyStrip_chain {l : List Char}
    (h : List.Chain' (fun a b => (isSpaceCh a && isSpaceCh b) = false) l) :
    List.Chain' (fun a b => (isSpaceCh a && isSpaceCh b) = false) (pyStrip l) := by
  rw [pyStrip]
  apply chain_symm_rev
  apply List.Chain'.suffix ?_ (List.dropWhile_suffix _)
  apply chain_symm_rev
  exact List.Chain'.suffix h (List.dropWhile_suffix _)

theorem titleAux_chain : ∀ (l : List Char) (b : Bool),
    List.Chain' (fun a b => (isSpaceCh a && isSpaceCh b) = false) l →
    List.Chain' (fun a b => (isSpaceCh a && isSpaceCh b) = false) (titleAux b l) := by
  intro l
  induction l with
  | nil => intro b _; simp [titleAux]
  | cons c cs ih =>
    intro b h
    have e1 : titleAux b (c :: cs) =
        (if isAlphaCh c then (if b then asciiLower c else asciiUpper c) else c)
          :: titleAux (isAlphaCh c) cs := rfl
    rw [e1]
    apply List.chain'_cons'.mpr
    refine ⟨?_, ih (isAlphaCh c) ((List.chain'_cons'.mp h).2)⟩
    intro h2 hh2
    cases cs with
    | nil => simp [titleAux] at hh2
    | cons d ds =>
      have e2 : titleAux (isAlphaCh c) (d :: ds) =
          (if isAlphaCh d then (if isAlphaCh c then asciiLower d else asciiUpper d) else d)
            :: titleAux (isAlphaCh d) ds := rfl
      rw [e2] at hh2
      simp only [List.head?_cons, Option.mem_def, Option.some.injEq] at hh2
      subst hh2
      have hcd : (isSpaceCh c && isSpaceCh d) = false := (List.chain'_cons.mp h).1
      rw [isSpaceCh_titleChar, isSpaceCh_titleChar]
      exact hcd

theorem pyStrip_last_not {l : List Char} {c : Char}
    (hc : (pyStrip l).getLast? = some c) : isSpaceCh c = false := by
  rw [pyStrip, List.getLast?_reverse] at hc
  exact head?_dropWhile_not hc

theorem pyStrip_head_not {l : List Char} {c : Char}
    (hc : (pyStrip l).head? = some c) : isSpaceCh c = false := by
  rw [pyStrip, List.head?_reverse] at hc
  obtain ⟨t, ht⟩ := List.dropWhile_suffix (l := (l.dropWhile isSpaceCh).reverse) isSpaceCh
  have hBne : (l.dropWhile isSpaceCh).reverse.dropWhile isSpaceCh ≠ [] := by
    intro hB0
    rw [hB0] at hc
    simp at hc
  have h2 : ((l.dropWhile isSpaceCh).reverse).getLast? = some c := by
    rw [← ht, List.getLast?_append_of_ne_nil _ hBne]
    exact hc
  rw [List.getLast?_reverse] at h2
  exact head?_dropWhile_not h2

theorem pyStrip_eq_self {l : List Char}
    (hh : ∀ c, l.head? = some c → isSpaceCh c = false)
    (hl : ∀ c, l.getLast? = some c → isSpaceCh c = false) : pyStrip l = l := by
  have e1 : l.dropWhile isSpaceCh = l := dropWhile_head_eq_self hh
  have e2 : l.reverse.dropWhile isSpaceCh = l.reverse :=
    dropWhile_head_eq_self (fun c hc => hl c (by rwa [List.head?_reverse] at hc))
  rw [pyStrip, e1, e2, List.reverse_reverse]

theorem titleAux_head_not_space {b : Bool} {l : List Char}
    (h : ∀ c, l.head? = some c → isSpaceCh c = false) :
    ∀ c, (titleAux b l).head? = some c → isSpaceCh c = false := by
  intro c hc
  cases l with
  | nil => simp [titleAux] at hc
  | cons a as =>
    have e1 : titleAux b (a :: as) =
        (if isAlphaCh a then (if b then asciiLower a else asciiUpper a) else a)
          :: titleAux (isAlphaCh a) as := rfl
    rw [e1] at hc
    simp only [List.head?_cons, Option.some.injEq] at hc
    subst hc
    rw [isSpaceCh_titleChar]
    exact h a rfl

theorem titleAux_last_not_space : ∀ (l : List Char) (b : Bool),
    (∀ c, l.getLast? = some c → isSpaceCh c = false) →
    ∀ c, (titleAux b l).getLast? = some c → isSpaceCh c = false := by
  intro l
  induction l with
  | nil => intro b _ c hc; simp [titleAux] at hc
  | cons a as ih =>
    intro b h c hc
    cases as with
    | nil =>
      have e1 : titleAux b [a] =
          [if isAlphaCh a then (if b then asciiLower a else asciiUpper a) else a] := rfl
      rw [e1] at hc
      simp only [List.getLast?_singleton, Option.some.injEq] at hc
      subst hc
      rw [isSpaceCh_titleChar]
      exact h a (by simp)
    | cons a2 as2 =>
      have e1 : titleAux b (a :: a2 :: as2) =
          (if isAlphaCh a then (if b then asciiLower a else asciiUpper a) else a)
            :: titleAux (isAlphaCh a) (a2 :: as2) := rfl
      have e2 : titleAux (isAlphaCh a) (a2 :: as2) =
          (if isAlphaCh a2 then (if isAlphaCh a then asciiLower a2 else asciiUpper a2) else a2)
            :: titleAux (isAlphaCh a2) as2 := rfl
      rw [e1, e2, List.getLast?_cons_cons, ← e2] at hc
      exact ih (isAlphaCh a)
        (fun d hd => h d (by rw [List.getLast?_cons_cons]; exact hd)) c hc

theorem titleAux_idem : ∀ (l : List Char) (b : Bool),
    titleAux b (titleAux b l) = titleAux b l := by
  intro l
  induction l with
  | nil => intro b; rfl
  | cons c cs ih =>
    intro b
    cases b with
    | false =>
      have e1 : titleAux false (c :: cs) =
          (if isAlphaCh c then asciiUpper c else c) :: titleAux (isAlphaCh c) cs := rfl
      rw [e1]
      have e2 : titleAux false ((if isAlphaCh c then asciiUpper c else c)
            :: titleAux (isAlphaCh c) cs)
          = (if isAlphaCh (if isAlphaCh c then asciiUpper c else c) then
               asciiUpper (if isAlphaCh c then asciiUpper c else c)
             else (if isAlphaCh c then asciiUpper c else c))
            :: titleAux (isAlphaCh (if isAlphaCh c then asciiUpper c else c))
                (titleAux (isAlphaCh c) cs) := rfl
      rw [e2]
      have hatc : isAlphaCh (if isAlphaCh c then asciiUpper c else c) = isAlphaCh c := by
        by_cases ha : isAlphaCh c = true
        · rw [if_pos ha, isAlphaCh_asciiUpper]
        · rw [if_neg ha]
      rw [hatc, ih (isAlphaCh c)]
      congr 1
      by_cases ha : isAlphaCh c = true
      · simp [ha, asciiUpper_idem]
      · simp [ha]
    | true =>
      have e1 : titleAux true (c :: cs) =
          (if isAlphaCh c then asciiLower c else c) :: titleAux (isAlphaCh c) cs := rfl
      rw [e1]
      have e2 : titleAux true ((if isAlphaCh c then asciiLower c else c)
            :: titleAux (isAlphaCh c) cs)
          = (if isAlphaCh (if isAlphaCh c then asciiLower c else c) then
               asciiLower (if isAlphaCh c then asciiLower c else c)
             else (if isAlphaCh c then asciiLower c else c))
            :: titleAux (isAlphaCh (if isAlphaCh c then asciiLower c else c))
                (titleAux (isAlphaCh c) cs) := rfl
      rw [e2]
      have hatc : isAlphaCh (if isAlphaCh c then asciiLower c else c) = isAlphaCh c := by
        by_cases ha : isAlphaCh c = true
        · rw [if_pos ha, isAlphaCh_asciiLower]
        · rw [if_neg ha]
      rw [hatc, ih (isAlphaCh c)]
      congr 1
      by_cases ha : isAlphaCh c = true
      · simp [ha, asciiLower_idem]
      · simp [ha]

/-- Amended C7: the cleaner is idempotent on every input whose cleaned output is free
of residual patterns — no per-phrase match and no package/quantity/unit-noise match
remain in `clean(s)` (the spec's own caveat "idempotent once no patterns remain");
without that proviso idempotence fails, because removing parenthetical or numeric
material can create new matches out of previously separated fragments. -/
theorem c7_clean_idempotent (s : String)
    (h1 : perHasMatch (cleanProductName s).data = false)
    (h2 : cleanScanMatch false (cleanProductName s).data = false) :
    cleanProductName (cleanProductName s) = cleanProductName s := by
  have hdata : (cleanProductName s).data =
      pyTitle (pyStrip (collapseWs ((parenSub (cleanSub (perStrip s.data))).filter
        (fun c => isWordCh c || isSpaceCh c)))) := rfl
  have hchain : List.Chain' (fun a b => (isSpaceCh a && isSpaceCh b) = false)
      (cleanProductName s).data := by
    rw [hdata]
    exact titleAux_chain _ false (pyStrip_chain (cwAux_chain _ _ (le_refl _)))
  have hh : ∀ c, (cleanProductName s).data.head? = some c → isSpaceCh c = false := by
    intro c hc
    rw [hdata] at hc
    exact titleAux_head_not_space (fun d hd => pyStrip_head_not hd) c hc
  have hl : ∀ c, (cleanProductName s).data.getLast? = some c → isSpaceCh c = false := by
    intro c hc
    rw [hdata] at hc
    exact titleAux_last_not_space _ false (fun d hd => pyStrip_last_not hd) c hc
  have hcls : ∀ c ∈ (cleanProductName s).data, (isWordCh c || isSpaceCh c) = true :=
    clean_chars s
  have e1 : perStrip (cleanProductName s).data = (cleanProductName s).data :=
    perStrip_no_match h1
  have e2 : cleanSub (cleanProductName s).data = (cleanProductName s).data := by
    rw [cleanSub]
    exact cleanSubFuel_no_match _ _ _ h2
  have e3 : parenSub (cleanProductName s).data = (cleanProductName s).data := by
    rw [parenSub]
    exact psAux_no_paren
      (fun c hc hpar => absurd (hcls c hc) (by subst hpar; decide))
  have e4 : (cleanProductName s).data.filter (fun c => isWordCh c || isSpaceCh c)
      = (cleanProductName s).data := List.filter_eq_self.mpr hcls
  have e5 : collapseWs (cleanProductName s).data = (cleanProductName s).data := by
    rw [collapseWs]
    exact cwAux_of_chain _ hchain
  have e6 : pyStrip (cleanProductName s).data = (cleanProductName s).data :=
    pyStrip_eq_self hh hl
  have e7 : pyTitle (cleanProductName s).data = (cleanProductName s).data := by
    rw [hdata]
    exact titleAux_idem _ false
  have hstep : cleanProductName (cleanProductName s)
      = ⟨pyTitle (pyStrip (collapseWs ((parenSub (cleanSub
          (perStrip (cleanProductName s).data))).filter
            (fun c => isWordCh c || isSpaceCh c))))⟩ := rfl
  rw [hstep, e1, e2, e3, e4, e5, e6, e7]

/-- Counterexample to C7 as stated: cleaning "p(x)er" removes the parenthetical and
produces "Per", and cleaning that again matches the per-phrase pattern and yields the
empty string — so clean(clean(s)) differs from clean(s). -/
theorem c7_clean_counterexample :
    cleanProductName "p(x)er" = "Per" ∧
    cleanProductName (cleanProductName "p(x)er") ≠ cleanProductName "p(x)er" := by
  constructor
  · decide
  · decide

/-- Witness for the amended C7 at the pattern-free cleaned name "Potatoes". -/
theorem c7_clean_idempotent_witness :
    cleanProductName (cleanProductName "Potatoes") = cleanProductName "Potatoes" :=
  c7_clean_idempotent "Potatoes" (by decide) (by decide)
